import Mathlib

/-!
Shallow embedding of the `crossterm_grid` layout crate (src/grid.rs,
src/process.rs, src/trim.rs, src/out.rs) and proofs about it.

Machine integers (`usize`) are modelled as `Nat`; `usize` subtraction is
modelled by truncating `Nat` subtraction and every theorem that depends on a
subtraction carries hypotheses ruling the underflow (Rust panic) out.
Strings are modelled as `List Char`, one `Char` per grapheme cluster, since
the source measures all widths in grapheme clusters.
-/

namespace CrosstermGrid

/-- grid.rs `Alignment`: negative direction [up/left] or positive [down/right]. -/
inductive Alignment where
  | Minus
  | Plus
deriving DecidableEq

/-- grid.rs `Grid`: half-open rectangle `[start_x, end_x) x [start_y, end_y)`. -/
structure Grid where
  start_x : Nat
  start_y : Nat
  end_x : Nat
  end_y : Nat
deriving DecidableEq

/-- grid.rs `Maximum`: at most one axis may carry a maximum size. -/
inductive Maximum where
  | None
  | X (size : Nat) (a : Alignment)
  | Y (size : Nat) (a : Alignment)
deriving DecidableEq

/-- grid.rs `SplitStrategy`: optional minimums on both axes, one optional maximum. -/
structure SplitStrategy where
  min_size_x : Option Nat
  min_size_y : Option Nat
  max_size : Maximum
deriving DecidableEq

/-- grid.rs `SplitStrategy::new()`: the empty strategy. -/
def SplitStrategy.new : SplitStrategy :=
  { min_size_x := Option.none, min_size_y := Option.none, max_size := Maximum.None }

/-- The `if let Some(val) = self.min_size_y { if grid.end_y <= grid.start_y + val ... }`
guard of `SplitStrategy::apply`. -/
def minBlockedY (s : SplitStrategy) (g : Grid) : Bool :=
  match s.min_size_y with
  | Option.none => false
  | Option.some val => decide (g.end_y ≤ g.start_y + val)

/-- The corresponding `min_size_x` guard of `SplitStrategy::apply`. -/
def minBlockedX (s : SplitStrategy) (g : Grid) : Bool :=
  match s.min_size_x with
  | Option.none => false
  | Option.some val => decide (g.end_x ≤ g.start_x + val)

/-- grid.rs `SplitStrategy::apply`.  The Rust function mutates `grid` and returns
`Option<Grid>`; here the pair `(returned piece, final state of the mutated grid)`
is returned. -/
def SplitStrategy.apply (s : SplitStrategy) (g : Grid) : Option Grid × Grid :=
  if g.start_x = g.end_x ∨ g.start_y = g.end_y then
    -- no space left
    (Option.none, g)
  else if minBlockedY s g then (Option.none, g)
  else if minBlockedX s g then (Option.none, g)
  else
    match s.max_size with
    | Maximum.None =>
        -- Takes up the entire grid
        (Option.some ⟨g.start_x, g.start_y, g.end_x, g.end_y⟩,
         ⟨g.end_x, g.end_y, g.end_x, g.end_y⟩)
    | Maximum.X size a =>
        let size := min size (g.end_x - g.start_x)
        if a = Alignment.Minus then
          (Option.some ⟨g.start_x, g.start_y, g.start_x + size, g.end_y⟩,
           ⟨g.start_x + size, g.start_y, g.end_x, g.end_y⟩)
        else
          (Option.some ⟨g.end_x - size, g.start_y, g.end_x, g.end_y⟩,
           ⟨g.start_x, g.start_y, g.end_x - size, g.end_y⟩)
    | Maximum.Y size a =>
        let size := min size (g.end_y - g.start_y)
        if a = Alignment.Minus then
          (Option.some ⟨g.start_x, g.start_y, g.end_x, g.start_y + size⟩,
           ⟨g.start_x, g.start_y + size, g.end_x, g.end_y⟩)
        else
          (Option.some ⟨g.start_x, g.end_y - size, g.end_x, g.end_y⟩,
           ⟨g.start_x, g.start_y, g.end_x, g.end_y - size⟩)

/-- grid.rs `Grid::split` simply delegates to `SplitStrategy::apply`. -/
def Grid.split (g : Grid) (s : SplitStrategy) : Option Grid × Grid :=
  s.apply g

/-- grid.rs `Grid::extend`.  The Rust function checks, in order: x-ranges equal
and below / above adjacent in y; then y-ranges equal and right / left adjacent
in x; otherwise hands the operand back as `Err`. -/
def Grid.extend (self g : Grid) : Except Grid Grid :=
  if self.start_x = g.start_x ∧ self.end_x = g.end_x ∧ self.end_y = g.start_y then
    Except.ok ⟨self.start_x, self.start_y, self.end_x, g.end_y⟩
  else if self.start_x = g.start_x ∧ self.end_x = g.end_x ∧ self.start_y = g.end_y then
    Except.ok ⟨self.start_x, g.start_y, self.end_x, self.end_y⟩
  else if self.start_y = g.start_y ∧ self.end_y = g.end_y ∧ self.end_x = g.start_x then
    Except.ok ⟨self.start_x, self.start_y, g.end_x, self.end_y⟩
  else if self.start_y = g.start_y ∧ self.end_y = g.end_y ∧ self.start_x = g.end_x then
    Except.ok ⟨g.start_x, self.start_y, self.end_x, self.end_y⟩
  else Except.error g

theorem minBlockedY_iff (s : SplitStrategy) (g : Grid) :
    minBlockedY s g = true ↔
      ∃ m, s.min_size_y = Option.some m ∧ g.end_y ≤ g.start_y + m := by
  cases h : s.min_size_y <;> simp [minBlockedY, h]

theorem minBlockedX_iff (s : SplitStrategy) (g : Grid) :
    minBlockedX s g = true ↔
      ∃ m, s.min_size_x = Option.some m ∧ g.end_x ≤ g.start_x + m := by
  cases h : s.min_size_x <;> simp [minBlockedX, h]

/-- C4: `split` returns `None` exactly when the grid is zero-area, or a
configured `min_size_y` is not strictly exceeded by the height, or a configured
`min_size_x` is not strictly exceeded by the width; whenever it returns `None`
the grid is left unchanged, and in particular a width exactly equal to
`min_size_x` yields `None` with the grid unchanged. -/
theorem c4_split_none_iff (s : SplitStrategy) (g : Grid) :
    (((s.apply g).1 = Option.none) ↔
      (g.start_x = g.end_x ∨ g.start_y = g.end_y ∨
       (∃ m, s.min_size_y = Option.some m ∧ g.end_y ≤ g.start_y + m) ∨
       (∃ m, s.min_size_x = Option.some m ∧ g.end_x ≤ g.start_x + m))) ∧
    ((s.apply g).1 = Option.none → (s.apply g).2 = g) ∧
    (s.min_size_x = Option.some (g.end_x - g.start_x) →
      (s.apply g).1 = Option.none ∧ (s.apply g).2 = g) := by
  have hY := minBlockedY_iff s g
  have hX := minBlockedX_iff s g
  have hwidth : g.end_x ≤ g.start_x + (g.end_x - g.start_x) := by omega
  unfold SplitStrategy.apply
  split_ifs with h1 h2 h3
  · exact ⟨by simpa using Or.imp id Or.inl h1, fun _ => rfl, fun _ => ⟨rfl, rfl⟩⟩
  · exact ⟨by simp [hY.mp h2], fun _ => rfl, fun _ => ⟨rfl, rfl⟩⟩
  · exact ⟨by simp [hX.mp h3], fun _ => rfl, fun _ => ⟨rfl, rfl⟩⟩
  · have hmx : ∀ m, s.min_size_x = Option.some m → ¬(g.end_x ≤ g.start_x + m) := by
      intro m hm hle
      exact h3 (hX.mpr ⟨m, hm, hle⟩)
    have hmy : ∀ m, s.min_size_y = Option.some m → ¬(g.end_y ≤ g.start_y + m) := by
      intro m hm hle
      exact h2 (hY.mpr ⟨m, hm, hle⟩)
    have hiff : ¬(g.start_x = g.end_x ∨ g.start_y = g.end_y ∨
       (∃ m, s.min_size_y = Option.some m ∧ g.end_y ≤ g.start_y + m) ∨
       (∃ m, s.min_size_x = Option.some m ∧ g.end_x ≤ g.start_x + m)) := by
      push_neg
      exact ⟨fun hc => h1 (Or.inl hc), fun hc => h1 (Or.inr hc),
        fun m hm => by have := hmy m hm; omega,
        fun m hm => by have := hmx m hm; omega⟩
    have hsome : ∀ p q, ((Option.some p, q) : Option Grid × Grid).1 ≠ Option.none := by
      simp
    rcases hm : s.max_size with _ | ⟨v, a⟩ | ⟨v, a⟩ <;>
      [skip; cases a; cases a] <;>
      simp only [] <;>
      refine ⟨by simp [hiff], by simp, fun hcfg => absurd hwidth (hmx _ hcfg)⟩

/-- C4 witness: a 5-wide grid with `min_size_x = 5` (width equals the minimum
exactly) is refused and left unchanged. -/
theorem c4_split_none_iff_witness :
    ((({ min_size_x := Option.some 5, min_size_y := Option.none,
         max_size := Maximum.None } : SplitStrategy).apply ⟨0, 0, 5, 7⟩).1 =
        Option.none ∧
     (({ min_size_x := Option.some 5, min_size_y := Option.none,
         max_size := Maximum.None } : SplitStrategy).apply ⟨0, 0, 5, 7⟩).2 =
        ⟨0, 0, 5, 7⟩) :=
  (c4_split_none_iff _ _).2.2 rfl

/-- C5: a strategy with only an X maximum of size `v` carves a piece of width
`min v width` flush against the aligned edge, spanning the full y-range; the
remainder shrinks by exactly that width on the same side. -/
theorem c5_maxX_split (g : Grid) (v : Nat) (a : Alignment)
    (hx : g.start_x ≠ g.end_x) (hy : g.start_y ≠ g.end_y) :
    ∃ piece,
      ((⟨Option.none, Option.none, Maximum.X v a⟩ : SplitStrategy).apply g).1 =
          Option.some piece ∧
      piece.end_x - piece.start_x = min v (g.end_x - g.start_x) ∧
      piece.start_y = g.start_y ∧ piece.end_y = g.end_y ∧
      ((⟨Option.none, Option.none, Maximum.X v a⟩ : SplitStrategy).apply g).2.start_y
          = g.start_y ∧
      ((⟨Option.none, Option.none, Maximum.X v a⟩ : SplitStrategy).apply g).2.end_y
          = g.end_y ∧
      (a = Alignment.Minus →
        piece.start_x = g.start_x ∧
        ((⟨Option.none, Option.none, Maximum.X v a⟩ : SplitStrategy).apply g).2.start_x
            = g.start_x + min v (g.end_x - g.start_x) ∧
        ((⟨Option.none, Option.none, Maximum.X v a⟩ : SplitStrategy).apply g).2.end_x
            = g.end_x) ∧
      (a = Alignment.Plus →
        piece.end_x = g.end_x ∧
        ((⟨Option.none, Option.none, Maximum.X v a⟩ : SplitStrategy).apply g).2.end_x
            = g.end_x - min v (g.end_x - g.start_x) ∧
        ((⟨Option.none, Option.none, Maximum.X v a⟩ : SplitStrategy).apply g).2.start_x
            = g.start_x) := by
  have hguard : ¬(g.start_x = g.end_x ∨ g.start_y = g.end_y) := by tauto
  cases a <;>
    simp only [SplitStrategy.apply, minBlockedY, minBlockedX, if_neg hguard,
      Bool.false_eq_true, if_false] <;>
    simp <;> omega

/-- C5 witness: `max_x 3 Minus` on a 10-wide grid carves the left 3 columns. -/
theorem c5_maxX_split_witness :
    ∃ piece,
      ((⟨Option.none, Option.none, Maximum.X 3 Alignment.Minus⟩ :
          SplitStrategy).apply ⟨0, 0, 10, 4⟩).1 = Option.some piece ∧
      piece.end_x - piece.start_x = min 3 10 ∧
      piece.start_y = 0 ∧ piece.end_y = 4 ∧
      ((⟨Option.none, Option.none, Maximum.X 3 Alignment.Minus⟩ :
          SplitStrategy).apply ⟨0, 0, 10, 4⟩).2.start_y = 0 ∧
      ((⟨Option.none, Option.none, Maximum.X 3 Alignment.Minus⟩ :
          SplitStrategy).apply ⟨0, 0, 10, 4⟩).2.end_y = 4 ∧
      (Alignment.Minus = Alignment.Minus →
        piece.start_x = 0 ∧
        ((⟨Option.none, Option.none, Maximum.X 3 Alignment.Minus⟩ :
            SplitStrategy).apply ⟨0, 0, 10, 4⟩).2.start_x = 0 + min 3 10 ∧
        ((⟨Option.none, Option.none, Maximum.X 3 Alignment.Minus⟩ :
            SplitStrategy).apply ⟨0, 0, 10, 4⟩).2.end_x = 10) ∧
      (Alignment.Minus = Alignment.Plus →
        piece.end_x = 10 ∧
        ((⟨Option.none, Option.none, Maximum.X 3 Alignment.Minus⟩ :
            SplitStrategy).apply ⟨0, 0, 10, 4⟩).2.end_x = 10 - min 3 10 ∧
        ((⟨Option.none, Option.none, Maximum.X 3 Alignment.Minus⟩ :
            SplitStrategy).apply ⟨0, 0, 10, 4⟩).2.start_x = 0) :=
  c5_maxX_split ⟨0, 0, 10, 4⟩ 3 Alignment.Minus (by decide) (by decide)

/-- C6: the empty strategy consumes the whole grid, leaving a zero-area grid
anchored at the former end; any zero-area grid yields `None` for every
strategy, unchanged. -/
theorem c6_empty_strategy (g : Grid) (s : SplitStrategy) :
    (g.start_x ≠ g.end_x → g.start_y ≠ g.end_y →
      SplitStrategy.new.apply g =
        (Option.some g, ⟨g.end_x, g.end_y, g.end_x, g.end_y⟩)) ∧
    ((g.start_x = g.end_x ∨ g.start_y = g.end_y) → s.apply g = (Option.none, g)) := by
  constructor
  · intro hx hy
    have hguard : ¬(g.start_x = g.end_x ∨ g.start_y = g.end_y) := by tauto
    simp [SplitStrategy.apply, SplitStrategy.new, minBlockedY, minBlockedX, if_neg hguard]
  · intro h
    simp [SplitStrategy.apply, if_pos h]

/-- C6 witness: the empty strategy consumes `(0,0)-(2,3)` whole; the resulting
zero-area grid then refuses any further split. -/
theorem c6_empty_strategy_witness :
    SplitStrategy.new.apply ⟨0, 0, 2, 3⟩ =
      (Option.some ⟨0, 0, 2, 3⟩, ⟨2, 3, 2, 3⟩) ∧
    SplitStrategy.new.apply ⟨2, 3, 2, 3⟩ = (Option.none, ⟨2, 3, 2, 3⟩) :=
  ⟨(c6_empty_strategy ⟨0, 0, 2, 3⟩ SplitStrategy.new).1 (by decide) (by decide),
   (c6_empty_strategy ⟨2, 3, 2, 3⟩ SplitStrategy.new).2 (Or.inl rfl)⟩

/-- C2 counterexample: for the no-maximum split the remainder collapses to a
zero-area grid anchored at the former end, which is never edge-adjacent to the
piece, so `extend` rejects it instead of restoring the original grid. -/
theorem c2_extend_cex :
    (SplitStrategy.new.apply ⟨0, 0, 1, 1⟩).1 = Option.some ⟨0, 0, 1, 1⟩ ∧
    (SplitStrategy.new.apply ⟨0, 0, 1, 1⟩).2 = ⟨1, 1, 1, 1⟩ ∧
    Grid.extend ⟨1, 1, 1, 1⟩ ⟨0, 0, 1, 1⟩ = Except.error ⟨0, 0, 1, 1⟩ :=
  ⟨rfl, rfl, rfl⟩

theorem extend_after_maxX_minus (gsx gsy gex gey k : Nat)
    (hx : gsx ≠ gex) (hy : gsy ≠ gey) :
    Grid.extend ⟨gsx + k, gsy, gex, gey⟩ ⟨gsx, gsy, gsx + k, gey⟩ =
      Except.ok ⟨gsx, gsy, gex, gey⟩ := by
  unfold Grid.extend
  dsimp only
  split_ifs with c1 c2 c3 c4
  · exfalso; omega
  · exfalso; omega
  · exfalso; omega
  · rfl
  · exact absurd ⟨rfl, rfl, rfl⟩ c4

theorem extend_after_maxX_plus (gsx gsy gex gey k : Nat)
    (hx : gsx ≠ gex) (hy : gsy ≠ gey) :
    Grid.extend ⟨gsx, gsy, gex - k, gey⟩ ⟨gex - k, gsy, gex, gey⟩ =
      Except.ok ⟨gsx, gsy, gex, gey⟩ := by
  unfold Grid.extend
  dsimp only
  split_ifs with c1 c2 c3
  · exfalso; omega
  · exfalso; omega
  · rfl
  all_goals exact absurd ⟨rfl, rfl, rfl⟩ c3

theorem extend_after_maxY_minus (gsx gsy gex gey k : Nat)
    (hx : gsx ≠ gex) (hy : gsy ≠ gey) :
    Grid.extend ⟨gsx, gsy + k, gex, gey⟩ ⟨gsx, gsy, gex, gsy + k⟩ =
      Except.ok ⟨gsx, gsy, gex, gey⟩ := by
  unfold Grid.extend
  dsimp only
  split_ifs with c1 c2
  · exfalso; omega
  · rfl
  all_goals exact absurd ⟨rfl, rfl, rfl⟩ c2

theorem extend_after_maxY_plus (gsx gsy gex gey k : Nat)
    (hx : gsx ≠ gex) (hy : gsy ≠ gey) :
    Grid.extend ⟨gsx, gsy, gex, gey - k⟩ ⟨gsx, gey - k, gex, gey⟩ =
      Except.ok ⟨gsx, gsy, gex, gey⟩ := by
  unfold Grid.extend
  dsimp only
  split_ifs with c1
  · rfl
  all_goals exact absurd ⟨rfl, rfl, rfl⟩ c1

/-- C2 (amended to the one-maximum cases): whenever a strategy whose maximum is
an X- or Y-maximum splits off a piece, extending the remainder by the piece
succeeds and restores the original grid. -/
theorem c2_extend_inverse (g piece : Grid) (s : SplitStrategy)
    (hmax : s.max_size ≠ Maximum.None)
    (h : (s.apply g).1 = Option.some piece) :
    (s.apply g).2.extend piece = Except.ok g := by
  obtain ⟨gsx, gsy, gex, gey⟩ := g
  obtain ⟨msx, msy, mmax⟩ := s
  unfold SplitStrategy.apply at h ⊢
  dsimp only at hmax h ⊢
  split_ifs at h ⊢ with h1 h2 h3
  push_neg at h1
  obtain ⟨hx, hy⟩ := h1
  rcases mmax with _ | ⟨v, a⟩ | ⟨v, a⟩
  · exact absurd rfl hmax
  · cases a
    · simp only [↓reduceIte, Option.some.injEq] at h ⊢
      subst h
      exact extend_after_maxX_minus gsx gsy gex gey _ hx hy
    · simp only [reduceCtorEq, if_false, ite_false, Option.some.injEq] at h ⊢
      subst h
      exact extend_after_maxX_plus gsx gsy gex gey _ hx hy
  · cases a
    · simp only [↓reduceIte, Option.some.injEq] at h ⊢
      subst h
      exact extend_after_maxY_minus gsx gsy gex gey _ hx hy
    · simp only [reduceCtorEq, if_false, ite_false, Option.some.injEq] at h ⊢
      subst h
      exact extend_after_maxY_plus gsx gsy gex gey _ hx hy

/-- C2 witness: carving the left 3 columns of `(0,0)-(10,4)` and extending the
remainder by the piece restores the original grid. -/
theorem c2_extend_inverse_witness :
    ((⟨Option.none, Option.none, Maximum.X 3 Alignment.Minus⟩ :
        SplitStrategy).apply ⟨0, 0, 10, 4⟩).2.extend ⟨0, 0, 3, 4⟩ =
      Except.ok ⟨0, 0, 10, 4⟩ :=
  c2_extend_inverse ⟨0, 0, 10, 4⟩ ⟨0, 0, 3, 4⟩
    ⟨Option.none, Option.none, Maximum.X 3 Alignment.Minus⟩ (by decide) rfl

/-- grid.rs `DividerStrategy`: initial placement of the divider row. -/
inductive DividerStrategy where
  | Beginning
  | End
  | Halfway
  | Pos (v : Nat)
deriving DecidableEq

/-- out.rs `Action`: a positioned-print instruction stream element. -/
inductive Action where
  | Print (s : List Char)
  | MoveTo (x y : Nat)
deriving DecidableEq

/-- process.rs `DrawProcess`.  A `TrimmedText` is its payload string, so the
`minus`/`plus` buffers are lists of grapheme lists. -/
structure DrawProcess where
  start_x : Nat
  start_y : Nat
  end_x : Nat
  end_y : Nat
  divider : Nat
  minus : List (List Char)
  plus : List (List Char)
  example_str : List Char
deriving DecidableEq

/-- process.rs `DrawProcess::new`: `" ".chars().cycle().take(width).collect()`
is `width` spaces. -/
def DrawProcess.new (val : Grid) (strategy : DividerStrategy) : DrawProcess where
  start_x := val.start_x
  start_y := val.start_y
  end_x := val.end_x
  end_y := val.end_y
  divider :=
    match strategy with
    | DividerStrategy.Beginning => 0
    | DividerStrategy.End => val.end_y - val.start_y
    | DividerStrategy.Halfway => (val.end_y - val.start_y) / 2
    | DividerStrategy.Pos v => v
  minus := []
  plus := []
  example_str := List.replicate (val.end_x - val.start_x) ' '

/-- process.rs `DrawProcess::width`. -/
def DrawProcess.width (p : DrawProcess) : Nat := p.end_x - p.start_x

/-- process.rs `DrawProcess::height`. -/
def DrawProcess.height (p : DrawProcess) : Nat := p.end_y - p.start_y

/-- process.rs `DrawProcess::add_to_section_trimmed`.  `Except.error t` models
`Err(InternalFormatError::NoSpace(t))`; Rust pushes to the end of the `Vec`. -/
def DrawProcess.add_to_section_trimmed (p : DrawProcess) (text : List Char)
    (sec : Alignment) : Except (List Char) DrawProcess :=
  match sec with
  | Alignment.Minus =>
      if p.divider - p.minus.length = 0 then Except.error text
      else Except.ok { p with minus := p.minus ++ [text] }
  | Alignment.Plus =>
      if p.end_y - p.start_y - p.divider - p.plus.length = 0 then Except.error text
      else Except.ok { p with plus := p.plus ++ [text] }

/-- The loop inside process.rs `DrawProcess::add_to_section`: feed trimmed
lines one at a time into `add_to_section_trimmed`; on the first failure return
the rejected line together with the not-yet-consumed rest of the iterator. -/
def DrawProcess.addLines (p : DrawProcess) (texts : List (List Char))
    (sec : Alignment) : DrawProcess × Option (List Char × List (List Char)) :=
  match texts with
  | [] => (p, Option.none)
  | t :: ts =>
      match p.add_to_section_trimmed t sec with
      | Except.ok p2 => p2.addLines ts sec
      | Except.error e => (p, Option.some (e, ts))

/-- process.rs `DrawProcess::add_to_section`, parameterized by the
`TrimStrategy` pair (`trim`, `back`) since the Rust function is generic in it.
The second component `Option.some err` models `Err(FormatError::NoSpace(err))`;
on failure the rejected line is put back in front of the leftover iterator and
the whole batch is folded through `back` against the partially-updated
process, exactly as in the source. -/
def DrawProcess.add_to_section
    (trimF : List Char → DrawProcess → Alignment → List (List Char))
    (backF : List (List Char) → DrawProcess → Alignment → List Char)
    (p : DrawProcess) (text : List Char) (sec : Alignment) :
    DrawProcess × Option (List Char) :=
  match p.addLines (trimF text p sec) sec with
  | (p2, Option.none) => (p2, Option.none)
  | (p2, Option.some (e, rest)) => (p2, Option.some (backF (e :: rest) p2 sec))

/-- The `map`-over-inputs loop of process.rs `DrawProcess::add_to_section_lines`
(without the `Minus` pre/post reversal). -/
def DrawProcess.addEach
    (trimF : List Char → DrawProcess → Alignment → List (List Char))
    (backF : List (List Char) → DrawProcess → Alignment → List Char)
    (p : DrawProcess) (texts : List (List Char)) (sec : Alignment) :
    DrawProcess × List (Option (List Char)) :=
  match texts with
  | [] => (p, [])
  | t :: ts =>
      let r := DrawProcess.add_to_section trimF backF p t sec
      let rest := DrawProcess.addEach trimF backF r.1 ts sec
      (rest.1, r.2 :: rest.2)

/-- process.rs `DrawProcess::add_to_section_lines`: for `Minus` the input
sequence is reversed before the per-input `add_to_section` calls and the result
vector is reversed back afterward. -/
def DrawProcess.add_to_section_lines
    (trimF : List Char → DrawProcess → Alignment → List (List Char))
    (backF : List (List Char) → DrawProcess → Alignment → List Char)
    (p : DrawProcess) (texts : List (List Char)) (sec : Alignment) :
    DrawProcess × List (Option (List Char)) :=
  if sec = Alignment.Minus then
    let r := DrawProcess.addEach trimF backF p texts.reverse sec
    (r.1, r.2.reverse)
  else
    DrawProcess.addEach trimF backF p texts sec

/-- process.rs `DrawProcess::shove`. -/
def DrawProcess.shove (p : DrawProcess) (direction : Alignment) : DrawProcess :=
  match direction with
  | Alignment.Minus => { p with divider := min p.divider p.minus.length }
  | Alignment.Plus =>
      { p with divider := max p.divider (p.end_y - p.start_y - p.plus.length) }

/-- process.rs `DrawProcess::grab_actions`.  `sy` is the local variable
`start_y` of the source (`self.divider - self.minus.len()`); the Rust
`for i in a..b` loop is `List.range' a (b - a)`. -/
def DrawProcess.grab_actions (p : DrawProcess) : List Action :=
  let start_x := p.start_x
  let sy := p.divider - p.minus.length
  let blanks1 := (List.range' p.start_y (sy - p.start_y)).bind
      (fun i => [Action.MoveTo start_x i, Action.Print p.example_str])
  let minusPart := p.minus.reverse.enum.bind
      (fun il => [Action.MoveTo start_x (sy + il.1), Action.Print il.2])
  let plusPart := p.plus.enum.bind
      (fun il => [Action.MoveTo start_x (p.divider + il.1), Action.Print il.2])
  let blanks2 := (List.range' (p.start_y + p.divider + p.plus.length)
      (p.end_y - (p.start_y + p.divider + p.plus.length))).bind
      (fun i => [Action.MoveTo start_x i, Action.Print p.example_str])
  blanks1 ++ minusPart ++ plusPart ++ blanks2

/-- trim.rs: `text.graphemes(true).chain(blank_space).take(width)` — the
infinite cycle of spaces truncated at `width` is `width` appended spaces
truncated at `width`. -/
def padTake (w : Nat) (l : List Char) : List Char :=
  (l ++ List.replicate w ' ').take w

/-- trim.rs `Truncate::trim`: one line of exactly `chunk.width()` graphemes. -/
def Truncate.trim (text : List Char) (chunk : DrawProcess) (_ : Alignment) :
    List (List Char) :=
  [padTake chunk.width text]

/-- trim.rs `Truncate::back`: unwraps the first line (the source `expect`s the
vector to be non-empty; in every reachable call it is). -/
def Truncate.back (text : List (List Char)) (_ : DrawProcess) (_ : Alignment) :
    List Char :=
  text.headD []

/-- The spec's continuously-maintained occupancy invariant of a `DrawProcess`:
neither buffer holds more lines than the space between its edge and the
divider. -/
def Inv (p : DrawProcess) : Prop :=
  p.minus.length ≤ p.divider ∧
  p.plus.length ≤ (p.end_y - p.start_y) - p.divider

instance (p : DrawProcess) : Decidable (Inv p) :=
  inferInstanceAs (Decidable (p.minus.length ≤ p.divider ∧
    p.plus.length ≤ (p.end_y - p.start_y) - p.divider))

theorem inv_add_to_section_trimmed (p p2 : DrawProcess) (t : List Char)
    (sec : Alignment) (hp : Inv p)
    (h : p.add_to_section_trimmed t sec = Except.ok p2) : Inv p2 := by
  obtain ⟨hm, hpl⟩ := hp
  unfold DrawProcess.add_to_section_trimmed at h
  cases sec
  all_goals
    dsimp only at h
    split_ifs at h with hc
    injection h with h
    subst h
    constructor <;> simp <;> omega

theorem inv_addLines (texts : List (List Char)) :
    ∀ p : DrawProcess, Inv p → ∀ sec, Inv (p.addLines texts sec).1 := by
  induction texts with
  | nil => intro p hp sec; exact hp
  | cons t ts ih =>
      intro p hp sec
      unfold DrawProcess.addLines
      cases h : p.add_to_section_trimmed t sec with
      | ok p2 => exact ih p2 (inv_add_to_section_trimmed p p2 t sec hp h) sec
      | error e => exact hp

theorem add_to_section_fst (trimF backF) (p : DrawProcess) (text : List Char)
    (sec : Alignment) :
    (DrawProcess.add_to_section trimF backF p text sec).1 =
      (p.addLines (trimF text p sec) sec).1 := by
  unfold DrawProcess.add_to_section
  rcases h : p.addLines (trimF text p sec) sec with ⟨p2, _ | ⟨e, rest⟩⟩ <;> simp

theorem inv_add_to_section (trimF backF) (p : DrawProcess) (text : List Char)
    (sec : Alignment) (hp : Inv p) :
    Inv (DrawProcess.add_to_section trimF backF p text sec).1 := by
  rw [add_to_section_fst]
  exact inv_addLines _ p hp sec

theorem inv_addEach (trimF backF) (texts : List (List Char)) :
    ∀ p : DrawProcess, Inv p → ∀ sec,
      Inv (DrawProcess.addEach trimF backF p texts sec).1 := by
  induction texts with
  | nil => intro p hp sec; exact hp
  | cons t ts ih =>
      intro p hp sec
      unfold DrawProcess.addEach
      exact ih _ (inv_add_to_section trimF backF p t sec hp) sec

theorem inv_shove (p : DrawProcess) (direction : Alignment) (hp : Inv p) :
    Inv (p.shove direction) := by
  obtain ⟨hm, hpl⟩ := hp
  cases direction <;>
    · constructor <;> simp [DrawProcess.shove] <;> omega

/-- C3: the occupancy invariant (`minus.len() <= divider` and
`plus.len() <= height - divider`) is preserved by `add_to_section` (for any
trim strategy), `add_to_section_lines`, and `shove`, and holds for every
process freshly built with a `Beginning`, `End` or `Halfway` divider. -/
theorem c3_invariant_preserved (p : DrawProcess) (hp : Inv p) (g : Grid) :
    (∀ texts sec, Inv (p.addLines texts sec).1) ∧
    (∀ trimF backF text sec,
      Inv (DrawProcess.add_to_section trimF backF p text sec).1) ∧
    (∀ trimF backF texts sec,
      Inv (DrawProcess.add_to_section_lines trimF backF p texts sec).1) ∧
    (∀ direction, Inv (p.shove direction)) ∧
    Inv (DrawProcess.new g DividerStrategy.Beginning) ∧
    Inv (DrawProcess.new g DividerStrategy.End) ∧
    Inv (DrawProcess.new g DividerStrategy.Halfway) := by
  refine ⟨fun texts sec => inv_addLines texts p hp sec,
    fun trimF backF text sec => inv_add_to_section trimF backF p text sec hp,
    fun trimF backF texts sec => ?_,
    fun direction => inv_shove p direction hp, ?_, ?_, ?_⟩
  · unfold DrawProcess.add_to_section_lines
    split_ifs <;> exact inv_addEach trimF backF _ p hp _
  · exact ⟨Nat.zero_le _, Nat.zero_le _⟩
  · exact ⟨Nat.zero_le _, Nat.zero_le _⟩
  · exact ⟨Nat.zero_le _, Nat.zero_le _⟩

/-- C3 witness: concrete invariant-preservation instances. -/
theorem c3_invariant_preserved_witness :
    Inv (((DrawProcess.new ⟨0, 0, 2, 2⟩ DividerStrategy.Halfway).addLines
        [['a', 'b'], ['c', 'd']] Alignment.Plus).1) ∧
    Inv ((DrawProcess.new ⟨0, 0, 2, 2⟩ DividerStrategy.Halfway).shove
        Alignment.Plus) ∧
    Inv (DrawProcess.new ⟨0, 0, 3, 3⟩ DividerStrategy.Beginning) :=
  ⟨(c3_invariant_preserved (DrawProcess.new ⟨0, 0, 2, 2⟩ DividerStrategy.Halfway)
      (by decide) ⟨0, 0, 3, 3⟩).1 [['a', 'b'], ['c', 'd']] Alignment.Plus,
   (c3_invariant_preserved (DrawProcess.new ⟨0, 0, 2, 2⟩ DividerStrategy.Halfway)
      (by decide) ⟨0, 0, 3, 3⟩).2.2.2.1 Alignment.Plus,
   (c3_invariant_preserved (DrawProcess.new ⟨0, 0, 2, 2⟩ DividerStrategy.Halfway)
      (by decide) ⟨0, 0, 3, 3⟩).2.2.2.2.1⟩

/-- C9: `shove` changes neither buffer nor any geometry field (so the total
number of stored lines is unchanged); it only recomputes `divider`, to
`min(divider, minus.len())` toward `Minus` and to
`max(divider, height - plus.len())` toward `Plus`.  The hypothesis keeps the
`usize` subtraction `end_y - start_y - plus.len()` of the source away from its
panicking (underflow) domain. -/
theorem c9_shove_frame (p : DrawProcess) (d : Alignment)
    (h : p.start_y + p.plus.length ≤ p.end_y) :
    (p.shove d).minus = p.minus ∧ (p.shove d).plus = p.plus ∧
    (p.shove d).start_x = p.start_x ∧ (p.shove d).start_y = p.start_y ∧
    (p.shove d).end_x = p.end_x ∧ (p.shove d).end_y = p.end_y ∧
    (p.shove Alignment.Minus).divider = min p.divider p.minus.length ∧
    (p.shove Alignment.Plus).divider =
      max p.divider (p.end_y - p.start_y - p.plus.length) := by
  cases d <;> simp [DrawProcess.shove]

/-- C9 witness: a concrete shove keeps the buffers and geometry intact. -/
theorem c9_shove_frame_witness :
    ((⟨0, 0, 4, 3, 2, [['a']], [['b']], ['_']⟩ : DrawProcess).shove
        Alignment.Plus).minus = [['a']] ∧
    ((⟨0, 0, 4, 3, 2, [['a']], [['b']], ['_']⟩ : DrawProcess).shove
        Alignment.Plus).plus = [['b']] ∧
    ((⟨0, 0, 4, 3, 2, [['a']], [['b']], ['_']⟩ : DrawProcess).shove
        Alignment.Plus).start_x = 0 ∧
    ((⟨0, 0, 4, 3, 2, [['a']], [['b']], ['_']⟩ : DrawProcess).shove
        Alignment.Plus).start_y = 0 ∧
    ((⟨0, 0, 4, 3, 2, [['a']], [['b']], ['_']⟩ : DrawProcess).shove
        Alignment.Plus).end_x = 4 ∧
    ((⟨0, 0, 4, 3, 2, [['a']], [['b']], ['_']⟩ : DrawProcess).shove
        Alignment.Plus).end_y = 3 ∧
    ((⟨0, 0, 4, 3, 2, [['a']], [['b']], ['_']⟩ : DrawProcess).shove
        Alignment.Minus).divider = min 2 1 ∧
    ((⟨0, 0, 4, 3, 2, [['a']], [['b']], ['_']⟩ : DrawProcess).shove
        Alignment.Plus).divider = max 2 (3 - 0 - 1) :=
  c9_shove_frame ⟨0, 0, 4, 3, 2, [['a']], [['b']], ['_']⟩ Alignment.Plus
    (by decide)

theorem addEach_truncate_fill (inputs : List (List Char)) :
    ∀ p : DrawProcess,
      p.plus.length + inputs.length ≤ p.end_y - p.start_y - p.divider →
      DrawProcess.addEach Truncate.trim Truncate.back p inputs Alignment.Plus =
        ({ p with plus := p.plus ++ inputs.map (padTake p.width) },
         inputs.map (fun _ => Option.none)) := by
  induction inputs with
  | nil =>
      intro p hcap
      simp [DrawProcess.addEach]
  | cons t ts ih =>
      intro p hcap
      have hne : ¬(p.end_y - p.start_y - p.divider - p.plus.length = 0) := by
        simp at hcap ⊢
        omega
      have hstep : DrawProcess.add_to_section Truncate.trim Truncate.back p t
          Alignment.Plus =
          ({ p with plus := p.plus ++ [padTake p.width t] }, Option.none) := by
        unfold DrawProcess.add_to_section Truncate.trim DrawProcess.addLines
          DrawProcess.add_to_section_trimmed
        rw [if_neg hne]
        rfl
      unfold DrawProcess.addEach
      rw [hstep]
      dsimp only
      rw [ih _ (by simp at hcap ⊢; omega)]
      simp [DrawProcess.width]

theorem add_truncate_full (p : DrawProcess) (s : List Char)
    (hfull : p.end_y - p.start_y - p.divider - p.plus.length = 0) :
    DrawProcess.add_to_section Truncate.trim Truncate.back p s Alignment.Plus =
      (p, Option.some (padTake p.width s)) := by
  unfold DrawProcess.add_to_section Truncate.trim DrawProcess.addLines
    DrawProcess.add_to_section_trimmed
  dsimp only
  rw [if_pos hfull]
  rfl

/-- C7: a process of height `H >= 1` built with a `Beginning` divider accepts
`H` `Truncate` plus-lines (every call returns Ok), its buffer then holds the
`H` width-trimmed lines, and one further call fails with `NoSpace` carrying the
over-limit input trimmed to exactly the buffer width in graphemes (space-padded
if short, cut if long), leaving the committed process unchanged. -/
theorem c7_truncate_capacity (g : Grid) (inputs : List (List Char))
    (s : List Char) (hH : 1 ≤ g.end_y - g.start_y)
    (hlen : inputs.length = g.end_y - g.start_y) :
    (DrawProcess.addEach Truncate.trim Truncate.back
        (DrawProcess.new g DividerStrategy.Beginning) inputs Alignment.Plus).2 =
      inputs.map (fun _ => Option.none) ∧
    (DrawProcess.addEach Truncate.trim Truncate.back
        (DrawProcess.new g DividerStrategy.Beginning) inputs Alignment.Plus).1.plus =
      inputs.map (padTake (g.end_x - g.start_x)) ∧
    (DrawProcess.add_to_section Truncate.trim Truncate.back
        (DrawProcess.addEach Truncate.trim Truncate.back
          (DrawProcess.new g DividerStrategy.Beginning) inputs Alignment.Plus).1
        s Alignment.Plus).2 =
      Option.some (padTake (g.end_x - g.start_x) s) ∧
    (DrawProcess.add_to_section Truncate.trim Truncate.back
        (DrawProcess.addEach Truncate.trim Truncate.back
          (DrawProcess.new g DividerStrategy.Beginning) inputs Alignment.Plus).1
        s Alignment.Plus).1 =
      (DrawProcess.addEach Truncate.trim Truncate.back
        (DrawProcess.new g DividerStrategy.Beginning) inputs Alignment.Plus).1 := by
  have hfill := addEach_truncate_fill inputs
      (DrawProcess.new g DividerStrategy.Beginning)
      (by simp [DrawProcess.new]; omega)
  rw [hfill]
  have hfull2 : ({ DrawProcess.new g DividerStrategy.Beginning with
        plus := (DrawProcess.new g DividerStrategy.Beginning).plus ++
          inputs.map (padTake (DrawProcess.new g DividerStrategy.Beginning).width)
      } : DrawProcess).end_y -
      ({ DrawProcess.new g DividerStrategy.Beginning with
        plus := (DrawProcess.new g DividerStrategy.Beginning).plus ++
          inputs.map (padTake (DrawProcess.new g DividerStrategy.Beginning).width)
      } : DrawProcess).start_y -
      ({ DrawProcess.new g DividerStrategy.Beginning with
        plus := (DrawProcess.new g DividerStrategy.Beginning).plus ++
          inputs.map (padTake (DrawProcess.new g DividerStrategy.Beginning).width)
      } : DrawProcess).divider -
      ({ DrawProcess.new g DividerStrategy.Beginning with
        plus := (DrawProcess.new g DividerStrategy.Beginning).plus ++
          inputs.map (padTake (DrawProcess.new g DividerStrategy.Beginning).width)
      } : DrawProcess).plus.length = 0 := by
    simp [DrawProcess.new]
    omega
  rw [add_truncate_full _ s hfull2]
  refine ⟨rfl, by simp [DrawProcess.new, DrawProcess.width], by simp; rfl, rfl⟩

/-- C7 witness: a 2-row, 2-wide grid accepts two lines, then rejects
`['c','x','y']` with the trimmed text `['c','x']` while keeping the state. -/
theorem c7_truncate_capacity_witness :
    (DrawProcess.addEach Truncate.trim Truncate.back
        (DrawProcess.new ⟨0, 0, 2, 2⟩ DividerStrategy.Beginning)
        [['a'], ['b']] Alignment.Plus).2 =
      [Option.none, Option.none] ∧
    (DrawProcess.addEach Truncate.trim Truncate.back
        (DrawProcess.new ⟨0, 0, 2, 2⟩ DividerStrategy.Beginning)
        [['a'], ['b']] Alignment.Plus).1.plus =
      [['a'], ['b']].map (padTake 2) ∧
    (DrawProcess.add_to_section Truncate.trim Truncate.back
        (DrawProcess.addEach Truncate.trim Truncate.back
          (DrawProcess.new ⟨0, 0, 2, 2⟩ DividerStrategy.Beginning)
          [['a'], ['b']] Alignment.Plus).1
        ['c', 'x', 'y'] Alignment.Plus).2 =
      Option.some (padTake 2 ['c', 'x', 'y']) ∧
    (DrawProcess.add_to_section Truncate.trim Truncate.back
        (DrawProcess.addEach Truncate.trim Truncate.back
          (DrawProcess.new ⟨0, 0, 2, 2⟩ DividerStrategy.Beginning)
          [['a'], ['b']] Alignment.Plus).1
        ['c', 'x', 'y'] Alignment.Plus).1 =
      (DrawProcess.addEach Truncate.trim Truncate.back
        (DrawProcess.new ⟨0, 0, 2, 2⟩ DividerStrategy.Beginning)
        [['a'], ['b']] Alignment.Plus).1 :=
  c7_truncate_capacity ⟨0, 0, 2, 2⟩ [['a'], ['b']] ['c', 'x', 'y']
    (by decide) (by decide)

/-- C1: the claim fails on the code.  For the reachable process built from grid
`(0,5)-(10,8)` with a `Beginning` divider and one `Truncate` plus-line,
`grab_actions` emits the content line at absolute row 0 (the divider-relative
offset, outside the rectangle) and blank fills only at rows 6 and 7 — row 5 of
the rectangle is never painted, contradicting the claim that every row of
`[start_y, end_y)` receives exactly one MoveTo/Print pair and none outside. -/
theorem c1_grab_actions_bug :
    (DrawProcess.add_to_section Truncate.trim Truncate.back
        (DrawProcess.new ⟨0, 5, 10, 8⟩ DividerStrategy.Beginning)
        (List.replicate 10 'x') Alignment.Plus).1.grab_actions =
      [Action.MoveTo 0 0, Action.Print (List.replicate 10 'x'),
       Action.MoveTo 0 6, Action.Print (List.replicate 10 ' '),
       Action.MoveTo 0 7, Action.Print (List.replicate 10 ' ')] ∧
    Action.MoveTo 0 0 ∈
      (DrawProcess.add_to_section Truncate.trim Truncate.back
        (DrawProcess.new ⟨0, 5, 10, 8⟩ DividerStrategy.Beginning)
        (List.replicate 10 'x') Alignment.Plus).1.grab_actions ∧
    Action.MoveTo 0 5 ∉
      (DrawProcess.add_to_section Truncate.trim Truncate.back
        (DrawProcess.new ⟨0, 5, 10, 8⟩ DividerStrategy.Beginning)
        (List.replicate 10 'x') Alignment.Plus).1.grab_actions := by
  refine ⟨by decide, by decide, by decide⟩

/-- Rust `slice::chunks(w)`: successive slices of `w` graphemes, the last one
possibly shorter.  `chunks` panics when `w == 0`; callers of this model guard
that case separately, so the `w = 0` branch here is never reached by them. -/
def chunksOf (w : Nat) (l : List Char) : List (List Char) :=
  if _hw : w = 0 then []
  else if hl : l = [] then []
  else l.take w :: chunksOf w (l.drop w)
termination_by l.length
decreasing_by
  simp only [List.length_drop]
  have hpos : 0 < l.length := List.length_pos.mpr hl
  omega

theorem chunksOf_nil (w : Nat) : chunksOf w [] = [] := by
  unfold chunksOf
  simp

theorem chunksOf_cons (w : Nat) (hw : w ≠ 0) (l : List Char) (hl : l ≠ []) :
    chunksOf w l = l.take w :: chunksOf w (l.drop w) := by
  conv_lhs => rw [chunksOf]
  rw [dif_neg hw, dif_neg hl]

theorem getLastD_irrel (l : List (List Char)) (hl : l ≠ []) (d e : List Char) :
    l.getLastD d = l.getLastD e := by
  cases l with
  | nil => exact absurd rfl hl
  | cons a t => rw [List.getLastD_cons, List.getLastD_cons]

/-- Shape of the chunk list produced by a non-zero width on a non-empty input:
non-empty, concatenating back to the input, full-width except possibly the
last chunk, whose shortfall pads the total length to a multiple of the
width. -/
theorem chunksOf_spec (w : Nat) (hw : w ≠ 0) :
    ∀ (n : Nat) (l : List Char), l.length ≤ n → l ≠ [] →
      chunksOf w l ≠ [] ∧
      (chunksOf w l).flatten = l ∧
      (∀ c ∈ (chunksOf w l).dropLast, c.length = w) ∧
      1 ≤ ((chunksOf w l).getLastD []).length ∧
      ((chunksOf w l).getLastD []).length ≤ w ∧
      w ∣ (l.length + (w - ((chunksOf w l).getLastD []).length)) := by
  intro n
  induction n with
  | zero =>
      intro l hn hl
      exact absurd (List.length_eq_zero.mp (Nat.le_zero.mp hn)) hl
  | succ n ih =>
      intro l hn hl
      rw [chunksOf_cons w hw l hl]
      by_cases hdrop : l.drop w = []
      · have hlen : l.length ≤ w := List.drop_eq_nil_iff.mp hdrop
        have htake : l.take w = l := List.take_of_length_le hlen
        rw [hdrop, chunksOf_nil, htake]
        have hlast : (([l] : List (List Char)).getLastD []) = l := by
          rw [List.getLastD_cons]
          rfl
        refine ⟨by simp, by simp, by simp, ?_, ?_, ?_⟩
        · rw [hlast]
          exact List.length_pos.mpr hl
        · rw [hlast]
          exact hlen
        · rw [hlast]
          have hsum : l.length + (w - l.length) = w := by omega
          rw [hsum]
      · have hwlt : w < l.length := by
          rcases Nat.lt_or_ge w l.length with h | h
          · exact h
          · exact absurd (List.drop_eq_nil_of_le h) hdrop
        have hdl : (l.drop w).length = l.length - w := List.length_drop w l
        obtain ⟨ihne, ihjoin, ihdropl, ihlen1, ihlenw, ihdvd⟩ :=
          ih (l.drop w) (by omega) hdrop
        have hlast : ((l.take w :: chunksOf w (l.drop w)).getLastD []) =
            ((chunksOf w (l.drop w)).getLastD []) := by
          rw [List.getLastD_cons]
          exact getLastD_irrel _ ihne _ _
        refine ⟨by simp, ?_, ?_, ?_, ?_, ?_⟩
        · rw [List.flatten_cons, ihjoin, List.take_append_drop]
        · rw [List.dropLast_cons_of_ne_nil ihne]
          intro c hc
          rcases List.mem_cons.mp hc with h | h
          · rw [h, List.length_take]
            omega
          · exact ihdropl c h
        · rw [hlast]
          exact ihlen1
        · rw [hlast]
          exact ihlenw
        · rw [hlast]
          have hsum : l.length +
              (w - ((chunksOf w (l.drop w)).getLastD []).length) =
              w + ((l.drop w).length +
                (w - ((chunksOf w (l.drop w)).getLastD []).length)) := by
            omega
          rw [hsum]
          exact Nat.dvd_add (dvd_refl w) ihdvd

/-- trim.rs `Split::trim`.  `Option.none` models the `chunks(0)` panic on a
zero-width process.  The source's storage loop pushes every chunk but the last
verbatim and pads the last chunk to the full width, i.e. the result is
`dropLast` of the chunk list followed by the padded last chunk; for `Minus`
alignment the line order is reversed at the end. -/
def Split.trim (text : List Char) (chunk : DrawProcess) (a : Alignment) :
    Option (List (List Char)) :=
  if chunk.width = 0 then Option.none
  else
    Option.some (
      let v := if text = [] then [' '] else text
      let cs := chunksOf chunk.width v
      let res := cs.dropLast ++ [padTake chunk.width (cs.getLastD [])]
      if a = Alignment.Minus then res.reverse else res)

/-- trim.rs `Split::back`.  `Option.none` models the explicit panic on an empty
input vector; otherwise the leftover lines are folded into one string,
prepending for `Minus` and appending for `Plus`. -/
def Split.back (text : List (List Char)) (_ : DrawProcess) (a : Alignment) :
    Option (List Char) :=
  if text = [] then Option.none
  else
    Option.some (text.foldl
      (fun res line =>
        match a with
        | Alignment.Minus => line ++ res
        | Alignment.Plus => res ++ line) [])

theorem padTake_length (w : Nat) (l : List Char) : (padTake w l).length = w := by
  simp [padTake, List.length_take]

theorem padTake_of_le (w : Nat) (l : List Char) (h : l.length ≤ w) :
    padTake w l = l ++ List.replicate (w - l.length) ' ' := by
  unfold padTake
  rw [List.take_append_eq_append_take, List.take_of_length_le h,
    List.take_replicate]
  have : min (w - l.length) w = w - l.length := by omega
  rw [this]

theorem foldl_append_eq_flatten (ts : List (List Char)) :
    ∀ acc, ts.foldl (fun res line => res ++ line) acc = acc ++ ts.flatten := by
  induction ts with
  | nil => intro acc; simp
  | cons t ts ih => intro acc; simp [ih]

theorem foldl_prepend_eq_reverse_flatten (ts : List (List Char)) :
    ∀ acc, ts.foldl (fun res line => line ++ res) acc =
      ts.reverse.flatten ++ acc := by
  induction ts with
  | nil => intro acc; simp
  | cons t ts ih => intro acc; simp [ih]

theorem flatten_dropLast_getLastD (cs : List (List Char)) (h : cs ≠ []) :
    cs.dropLast.flatten ++ cs.getLastD [] = cs.flatten := by
  conv_rhs => rw [← List.dropLast_append_getLast h]
  rw [List.flatten_append]
  cases cs with
  | nil => exact absurd rfl h
  | cons a t =>
      rw [List.getLast_eq_getLastD, List.getLastD_cons]
      simp

/-- C10: with a positive width, `Split::trim` always returns (never panics) a
non-empty vector of lines each of exactly the process width in graphemes; with
width 0 the chunking step panics (modelled as `Option.none`), so the
width-positivity precondition is necessary. -/
theorem c10_split_trim_total (p : DrawProcess) (s : List Char) (a : Alignment) :
    (1 ≤ p.width →
      ∃ res, Split.trim s p a = Option.some res ∧ res ≠ [] ∧
        ∀ line ∈ res, line.length = p.width) ∧
    (p.width = 0 → Split.trim s p a = Option.none) := by
  constructor
  · intro hw
    have hw0 : p.width ≠ 0 := by omega
    unfold Split.trim
    rw [if_neg hw0]
    have hvne : (if s = [] then [' '] else s) ≠ [] := by
      split_ifs with h
      · simp
      · exact h
    obtain ⟨hne, hjoin, hdropl, hl1, hlw, hdvd⟩ :=
      chunksOf_spec p.width hw0 (if s = [] then [' '] else s).length
        (if s = [] then [' '] else s) le_rfl hvne
    have hres : ∀ line ∈ (chunksOf p.width (if s = [] then [' '] else s)).dropLast ++
        [padTake p.width
          ((chunksOf p.width (if s = [] then [' '] else s)).getLastD [])],
        line.length = p.width := by
      intro line hline
      rcases List.mem_append.mp hline with h | h
      · exact hdropl line h
      · rw [List.mem_singleton.mp h]
        exact padTake_length _ _
    by_cases ha : a = Alignment.Minus
    · rw [if_pos ha]
      refine ⟨_, rfl, by simp, ?_⟩
      intro line hline
      exact hres line (List.mem_reverse.mp hline)
    · rw [if_neg ha]
      exact ⟨_, rfl, by simp, hres⟩
  · intro hw
    unfold Split.trim
    rw [if_pos hw]

/-- C10 witness: width 2 splits a 3-grapheme string without panicking into
full-width lines; width 0 hits the panic branch. -/
theorem c10_split_trim_total_witness :
    (∃ res, Split.trim ['a', 'b', 'c']
        (DrawProcess.new ⟨0, 0, 2, 1⟩ DividerStrategy.Beginning)
        Alignment.Plus = Option.some res ∧ res ≠ [] ∧
      ∀ line ∈ res, line.length =
        (DrawProcess.new ⟨0, 0, 2, 1⟩ DividerStrategy.Beginning).width) ∧
    Split.trim ['a'] (DrawProcess.new ⟨3, 0, 3, 1⟩ DividerStrategy.Beginning)
        Alignment.Plus = Option.none :=
  ⟨(c10_split_trim_total
      (DrawProcess.new ⟨0, 0, 2, 1⟩ DividerStrategy.Beginning)
      ['a', 'b', 'c'] Alignment.Plus).1 (by decide),
   (c10_split_trim_total
      (DrawProcess.new ⟨3, 0, 3, 1⟩ DividerStrategy.Beginning)
      ['a'] Alignment.Plus).2 rfl⟩

/-- C8: composing `Split::trim` with `Split::back` on the full chunk sequence
(for either alignment — `Minus` reverses in `trim` and prepends in `back`)
reconstructs the input padded with trailing spaces to a multiple of the
width. -/
theorem c8_split_roundtrip (p : DrawProcess) (s : List Char) (a : Alignment)
    (hw : 1 ≤ p.width) :
    ∃ ts n, Split.trim s p a = Option.some ts ∧
      Split.back ts p a = Option.some (s ++ List.replicate n ' ') ∧
      p.width ∣ (s.length + n) := by
  have hw0 : p.width ≠ 0 := by omega
  have hvne : (if s = [] then [' '] else s) ≠ [] := by
    split_ifs with h
    · simp
    · exact h
  obtain ⟨hne, hjoin, hdropl, hl1, hlw, hdvd⟩ :=
    chunksOf_spec p.width hw0 (if s = [] then [' '] else s).length
      (if s = [] then [' '] else s) le_rfl hvne
  set v := if s = [] then [' '] else s with hv
  set cs := chunksOf p.width v with hcs
  set res0 := cs.dropLast ++ [padTake p.width (cs.getLastD [])] with hres0
  have hres0ne : res0 ≠ [] := by simp [hres0]
  have hflat : res0.flatten =
      v ++ List.replicate (p.width - (cs.getLastD []).length) ' ' := by
    rw [hres0, List.flatten_append, padTake_of_le _ _ hlw]
    simp only [List.flatten_cons, List.flatten_nil, List.append_nil]
    rw [← List.append_assoc, flatten_dropLast_getLastD cs hne, hjoin]
  have hback : Split.back res0 p Alignment.Plus =
      Option.some res0.flatten := by
    unfold Split.back
    rw [if_neg hres0ne]
    rw [foldl_append_eq_flatten res0 []]
    rw [List.nil_append]
  have hbackrev : Split.back res0.reverse p Alignment.Minus =
      Option.some res0.flatten := by
    unfold Split.back
    rw [if_neg (by simp [hres0])]
    rw [foldl_prepend_eq_reverse_flatten res0.reverse []]
    rw [List.reverse_reverse, List.append_nil]
  have htrim : Split.trim s p a =
      Option.some (if a = Alignment.Minus then res0.reverse else res0) := by
    unfold Split.trim
    rw [if_neg hw0]
  have hmain : ∃ n, res0.flatten = s ++ List.replicate n ' ' ∧
      p.width ∣ (s.length + n) := by
    by_cases hs : s = []
    · have hv1 : v = [' '] := by rw [hv, if_pos hs]
      refine ⟨p.width - (cs.getLastD []).length + 1, ?_, ?_⟩
      · rw [hflat, hv1, hs]
        simp [List.replicate_succ]
      · have hlenv : v.length = 1 := by simp [hv1]
        have hlens : s.length = 0 := by simp [hs]
        have heq : s.length + (p.width - (cs.getLastD []).length + 1) =
            v.length + (p.width - (cs.getLastD []).length) := by omega
        rw [heq]
        exact hdvd
    · have hv2 : v = s := by rw [hv, if_neg hs]
      refine ⟨p.width - (cs.getLastD []).length, ?_, ?_⟩
      · rw [hflat, hv2]
      · have : v.length = s.length := by rw [hv2]
        rw [← this]
        exact hdvd
  obtain ⟨n, hn, hdn⟩ := hmain
  by_cases ha : a = Alignment.Minus
  · refine ⟨res0.reverse, n, ?_, ?_, hdn⟩
    · rw [htrim, if_pos ha]
    · rw [ha, hbackrev, hn]
  · have hap : a = Alignment.Plus := by
      cases a
      · exact absurd rfl ha
      · rfl
    refine ⟨res0, n, ?_, ?_, hdn⟩
    · rw [htrim, if_neg ha]
    · rw [hap, hback, hn]

/-- C8 witness: width 2, input of 3 graphemes, padded with one trailing space
to length 4, a multiple of 2. -/
theorem c8_split_roundtrip_witness :
    ∃ ts n, Split.trim ['a', 'b', 'c']
        (DrawProcess.new ⟨0, 0, 2, 1⟩ DividerStrategy.Beginning)
        Alignment.Minus = Option.some ts ∧
      Split.back ts (DrawProcess.new ⟨0, 0, 2, 1⟩ DividerStrategy.Beginning)
        Alignment.Minus =
        Option.some (['a', 'b', 'c'] ++ List.replicate n ' ') ∧
      (DrawProcess.new ⟨0, 0, 2, 1⟩ DividerStrategy.Beginning).width ∣
        (['a', 'b', 'c'].length + n) :=
  c8_split_roundtrip (DrawProcess.new ⟨0, 0, 2, 1⟩ DividerStrategy.Beginning)
    ['a', 'b', 'c'] Alignment.Minus (by decide)

end CrosstermGrid
